import Mathlib

/-!
Verification of the native entry point of the MarkReview desktop shell
(`src-tauri/src/main.rs`): the command-line argument reader, the supported
file-extension filter, the delayed file-args event emission, and the
registration of framework plugins.

Strings are modelled as Lean `String`; Rust `str::to_lowercase` is modelled
as a per-character lowercasing and `str::ends_with` as a suffix test on the
character sequence.
-/

namespace MarkReview

/-- Model of Rust `str::to_lowercase`: lowercase every character. -/
def rustToLowercase (s : String) : String :=
  String.mk (s.data.map Char.toLower)

/-- Model of Rust `str::ends_with`: suffix test on the character sequence. -/
def rustEndsWith (s suf : String) : Bool :=
  suf.data.isSuffixOf s.data

/-- The filter predicate of the setup closure in `main`:
`lower_path.ends_with(".md") || lower_path.ends_with(".markdown") ||
 lower_path.ends_with(".txt")` where `lower_path = path.to_lowercase()`. -/
def isSupportedPath (path : String) : Bool :=
  let lower_path := rustToLowercase path
  rustEndsWith lower_path ".md" ||
    rustEndsWith lower_path ".markdown" ||
    rustEndsWith lower_path ".txt"

/-- The `supported_files` list of the setup closure: filter the file
arguments by the supported-extension predicate. -/
def supported_files (file_args : List String) : List String :=
  file_args.filter isSupportedPath

/-- The Tauri command `get_command_line_args`: returns `env::args().collect()`,
i.e. the process argument vector as captured, unchanged. -/
def get_command_line_args (args : List String) : List String :=
  args

/-- An observable action of the spawned background thread. -/
inductive ThreadStep where
  | sleepMs (ms : Nat)
  | emit (event : String) (payload : String)
  deriving DecidableEq, Repr

/-- The body of the spawned thread: sleep 2000 ms, then emit the
`tauri://file-args` event carrying the file path. -/
def threadBody (file_path : String) : List ThreadStep :=
  [ThreadStep.sleepMs 2000, ThreadStep.emit "tauri://file-args" file_path]

/-- The setup closure of `main`, returning the list of spawned background
threads (each as its action trace).  Mirrors the source: if there is an
argument beyond the executable path, filter `args[1..]` by the extension
predicate; if the result is nonempty, spawn one thread on its first
element; otherwise spawn nothing. -/
def setup (args : List String) : List (List ThreadStep) :=
  if args.length > 1 then
    let file_args : List String := args.drop 1
    match supported_files file_args with
    | [] => []
    | file_path :: _ => [threadBody file_path]
  else []

/-- The events emitted by one thread trace, in order. -/
def emitsOf (steps : List ThreadStep) : List (String × String) :=
  steps.filterMap fun s =>
    match s with
    | ThreadStep.emit e p => some (e, p)
    | _ => none

/-- All events emitted by the threads spawned at setup, in order. -/
def emittedEvents (args : List String) : List (String × String) :=
  ((setup args).map emitsOf).flatten

/-- The spawned thread parameterized by the outcome the host returns for the
`emit` call.  The Rust code binds the outcome to `_result` and drops it:
the trace performed is the same and the thread never fails, whatever the
outcome. -/
def threadRun (file_path : String) (emitOutcome : Except String Unit) :
    List ThreadStep × Bool :=
  let _result := emitOutcome
  (threadBody file_path, false)

section Builder

/-- A registered plugin: its name and its custom configuration, `none`
meaning the plugin's plain `init()` with no custom configuration. -/
structure PluginReg where
  name : String
  customConfig : Option String
  deriving DecidableEq, Repr

/-- The observable registrations made on the Tauri builder. -/
structure BuilderState where
  plugins : List PluginReg
  invokeHandlers : List String
  deriving DecidableEq, Repr

/-- Model of `tauri::Builder::default()`: nothing registered. -/
def builderDefault : BuilderState :=
  BuilderState.mk [] []

/-- Model of `.plugin(p)`: append a plugin registration. -/
def BuilderState.plugin (b : BuilderState) (p : PluginReg) : BuilderState :=
  BuilderState.mk (b.plugins ++ [p]) b.invokeHandlers

/-- Model of the `.invoke_handler` call: record the exposed commands. -/
def BuilderState.invoke_handler (b : BuilderState) (cmds : List String) :
    BuilderState :=
  BuilderState.mk b.plugins (b.invokeHandlers ++ cmds)

/-- The builder chain of `main`:
`tauri::Builder::default().plugin(tauri_plugin_shell::init())
 .plugin(tauri_plugin_dialog::init()).plugin(tauri_plugin_fs::init())
 .invoke_handler(tauri::generate_handler![get_command_line_args])`. -/
def appBuilder : BuilderState :=
  ((((builderDefault.plugin (PluginReg.mk "shell" none)).plugin
      (PluginReg.mk "dialog" none)).plugin
      (PluginReg.mk "fs" none)).invoke_handler
      ["get_command_line_args"])

end Builder

section Helpers

/-- Evaluating `Char.ofNat` at a valid code point keeps the code point. -/
lemma char_toNat_ofNat_valid {n : Nat} (h : n.isValidChar) :
    (Char.ofNat n).toNat = n := by
  rw [Char.ofNat, dif_pos h]
  rfl

/-- ASCII lowercasing of a character is idempotent. -/
lemma char_toLower_toLower (c : Char) : c.toLower.toLower = c.toLower := by
  unfold Char.toLower
  by_cases h : c.toNat ≥ 65 ∧ c.toNat ≤ 90
  · rw [if_pos h]
    have hv : (c.toNat + 32).isValidChar := Or.inl (by omega)
    rw [char_toNat_ofNat_valid hv]
    rw [if_neg (by omega)]
  · rw [if_neg h, if_neg h]

/-- Lowercasing a string is idempotent. -/
lemma rustToLowercase_idem (s : String) :
    rustToLowercase (rustToLowercase s) = rustToLowercase s := by
  unfold rustToLowercase
  simp [List.map_map, Function.comp_def, char_toLower_toLower]

/-- Characterization of the setup closure: it spawns exactly one thread on
the first supported argument after the executable path when one exists, and
none otherwise. -/
lemma setup_eq_find (args : List String) :
    setup args =
      match (args.drop 1).find? isSupportedPath with
      | some p => [threadBody p]
      | none => [] := by
  unfold setup
  by_cases h : args.length > 1
  · rw [if_pos h]
    have hf : (supported_files (args.drop 1)).head? =
        (args.drop 1).find? isSupportedPath := List.filter_head? _ _
    cases hs : supported_files (args.drop 1) with
    | nil =>
      rw [hs] at hf
      simp only [List.head?_nil] at hf
      rw [← hf]
      simp only [hs]
    | cons a l =>
      rw [hs] at hf
      simp only [List.head?_cons] at hf
      rw [← hf]
      simp only [hs]
  · rw [if_neg h]
    have hd : args.drop 1 = [] := List.drop_eq_nil_of_le (by omega)
    rw [hd]
    rfl

/-- Characterization of the emitted events: exactly one `tauri://file-args`
event for the first supported argument after the executable path, none when
there is no supported argument. -/
lemma emittedEvents_eq_find (args : List String) :
    emittedEvents args =
      match (args.drop 1).find? isSupportedPath with
      | some p => [("tauri://file-args", p)]
      | none => [] := by
  unfold emittedEvents
  rw [setup_eq_find]
  cases hf : (args.drop 1).find? isSupportedPath with
  | none => rfl
  | some p => simp [threadBody, emitsOf]

end Helpers

/-- C1: for every list of command-line arguments, the file filter keeps
exactly those arguments whose lowercased form ends with ".md", ".markdown",
or ".txt", and discards all others; no other check on the argument's format
is performed. -/
theorem c1_file_filter_exact (file_args : List String) :
    supported_files file_args =
      file_args.filter (fun path =>
        decide (rustEndsWith (rustToLowercase path) ".md" = true ∨
                rustEndsWith (rustToLowercase path) ".markdown" = true ∨
                rustEndsWith (rustToLowercase path) ".txt" = true)) := by
  unfold supported_files
  apply List.filter_congr
  intro x _
  simp [isSupportedPath, Bool.or_eq_true, Bool.or_assoc]

/-- C4: the exposed command `get_command_line_args` returns the process's
command-line argument vector unmodified and in order, the executable path
included as the first element. -/
theorem c4_get_command_line_args_id (args : List String) :
    get_command_line_args args = args ∧
    (get_command_line_args args).head? = args.head? := by
  exact ⟨rfl, rfl⟩

/-- C5: the extension filter's decision is invariant under lowercasing the
argument: the filter keeps `s` exactly when it keeps the lowercased form of
`s`. -/
theorem c5_filter_case_invariant (s : String) :
    isSupportedPath (rustToLowercase s) = isSupportedPath s := by
  unfold isSupportedPath
  rw [rustToLowercase_idem]

/-- C2: whenever at least one argument after the executable path passes the
extension filter, setup spawns exactly one background thread, which emits
exactly one event carrying the earliest matching argument in argument
order. -/
theorem c2_one_thread_first_match (args : List String)
    (h : ∃ s ∈ args.drop 1, isSupportedPath s = true) :
    ∃ p, (args.drop 1).find? isSupportedPath = some p ∧
      isSupportedPath p = true ∧
      (∃ pre post, args.drop 1 = pre ++ p :: post ∧
        ∀ x ∈ pre, isSupportedPath x = false) ∧
      setup args = [threadBody p] ∧
      emittedEvents args = [("tauri://file-args", p)] := by
  obtain ⟨s, hs, hsup⟩ := h
  have hsome : ((args.drop 1).find? isSupportedPath).isSome := by
    rw [List.find?_isSome]
    exact ⟨s, hs, hsup⟩
  obtain ⟨p, hp⟩ := Option.isSome_iff_exists.mp hsome
  obtain ⟨hpb, pre, post, heq, hall⟩ := List.find?_eq_some.mp hp
  refine ⟨p, hp, hpb, ⟨pre, post, heq, ?_⟩, ?_, ?_⟩
  · intro x hx
    simpa using hall x hx
  · rw [setup_eq_find, hp]
  · rw [emittedEvents_eq_find, hp]

/-- Concrete instance of the C2 theorem at `["app", "readme.MD", "b.md"]`. -/
theorem c2_one_thread_first_match_witness :
    ∃ p, ((["app", "readme.MD", "b.md"] : List String).drop 1).find?
        isSupportedPath = some p ∧
      isSupportedPath p = true ∧
      (∃ pre post, (["app", "readme.MD", "b.md"] : List String).drop 1 =
          pre ++ p :: post ∧ ∀ x ∈ pre, isSupportedPath x = false) ∧
      setup ["app", "readme.MD", "b.md"] = [threadBody p] ∧
      emittedEvents ["app", "readme.MD", "b.md"] =
        [("tauri://file-args", p)] :=
  c2_one_thread_first_match ["app", "readme.MD", "b.md"]
    ⟨"readme.MD", by decide, by decide⟩

/-- C3: the file-args event is emitted exactly when some argument after the
executable path passes the extension filter; when none matches, no thread is
spawned and no event is emitted. -/
theorem c3_event_iff_match (args : List String) :
    (emittedEvents args ≠ [] ↔ ∃ s ∈ args.drop 1, isSupportedPath s = true) ∧
    ((∀ s ∈ args.drop 1, isSupportedPath s = false) →
      setup args = [] ∧ emittedEvents args = []) := by
  have hnone : (∀ s ∈ args.drop 1, isSupportedPath s = false) →
      (args.drop 1).find? isSupportedPath = none := by
    intro hall
    rw [List.find?_eq_none]
    intro x hx
    simp [hall x hx]
  constructor
  · constructor
    · intro hne
      by_contra hcon
      push_neg at hcon
      have hfn : (args.drop 1).find? isSupportedPath = none := by
        apply hnone
        intro s hs
        have := hcon s hs
        revert this
        cases isSupportedPath s <;> simp
      rw [emittedEvents_eq_find, hfn] at hne
      exact hne rfl
    · rintro ⟨s, hs, hsup⟩
      have hsome : ((args.drop 1).find? isSupportedPath).isSome := by
        rw [List.find?_isSome]
        exact ⟨s, hs, hsup⟩
      obtain ⟨p, hp⟩ := Option.isSome_iff_exists.mp hsome
      rw [emittedEvents_eq_find, hp]
      simp
  · intro hall
    have hfn := hnone hall
    constructor
    · rw [setup_eq_find, hfn]
    · rw [emittedEvents_eq_find, hfn]

/-- Concrete instance of the C3 theorem: with no argument beyond the
executable path no thread is spawned and no event is emitted. -/
theorem c3_event_iff_match_witness :
    setup ["markreview"] = [] ∧ emittedEvents ["markreview"] = [] :=
  (c3_event_iff_match ["markreview"]).2 (by decide)

/-- C6: every thread spawned at setup first sleeps 2000 ms and only then
emits: its trace is the sleep followed by the emit, and any emit step in the
trace is preceded by the 2000 ms sleep step. -/
theorem c6_emit_after_sleep (args : List String) (t : List ThreadStep)
    (ht : t ∈ setup args) :
    ∃ p, t = [ThreadStep.sleepMs 2000,
              ThreadStep.emit "tauri://file-args" p] ∧
      ∀ (i : Nat) (e q : String), t[i]? = some (ThreadStep.emit e q) →
        ∃ j, j < i ∧ t[j]? = some (ThreadStep.sleepMs 2000) := by
  rw [setup_eq_find] at ht
  cases hf : (args.drop 1).find? isSupportedPath with
  | none =>
    rw [hf] at ht
    simp at ht
  | some p =>
    rw [hf] at ht
    simp only [List.mem_singleton] at ht
    subst ht
    refine ⟨p, rfl, ?_⟩
    intro i e q hi
    match i with
    | 0 => simp [threadBody] at hi
    | 1 => exact ⟨0, Nat.zero_lt_one, rfl⟩
    | n + 2 => simp [threadBody] at hi

/-- Concrete instance of the C6 theorem at `["app", "a.md"]`. -/
theorem c6_emit_after_sleep_witness :
    ∃ p, threadBody "a.md" = [ThreadStep.sleepMs 2000,
        ThreadStep.emit "tauri://file-args" p] ∧
      ∀ (i : Nat) (e q : String),
        (threadBody "a.md")[i]? = some (ThreadStep.emit e q) →
        ∃ j, j < i ∧ (threadBody "a.md")[j]? =
          some (ThreadStep.sleepMs 2000) :=
  c6_emit_after_sleep ["app", "a.md"] (threadBody "a.md") (by decide)

/-- C7: the emit outcome is discarded: whatever outcome the host returns,
the thread performs the same trace, emits exactly once (no retry), and
propagates no failure. -/
theorem c7_emit_result_discarded (file_path : String)
    (r₁ r₂ : Except String Unit) :
    threadRun file_path r₁ = threadRun file_path r₂ ∧
    (threadRun file_path r₁).1 = threadBody file_path ∧
    (emitsOf (threadRun file_path r₁).1).length = 1 ∧
    (threadRun file_path r₁).2 = false :=
  ⟨rfl, rfl, rfl, rfl⟩

/-- C8: the builder registers exactly the three plugins shell, dialog and
filesystem, in that order, each with no custom configuration, and exactly
one invoke handler exposing the single command `get_command_line_args`. -/
theorem c8_plugins_and_handler :
    appBuilder.plugins = [PluginReg.mk "shell" none,
      PluginReg.mk "dialog" none, PluginReg.mk "fs" none] ∧
    appBuilder.plugins.length = 3 ∧
    (∀ p ∈ appBuilder.plugins, p.customConfig = none) ∧
    appBuilder.invokeHandlers = ["get_command_line_args"] := by
  refine ⟨rfl, rfl, ?_, rfl⟩
  intro p hp
  fin_cases hp <;> rfl

/-- C9: the first argument (the executable path) is never considered by the
startup scan: setup does not depend on it, and every emitted payload comes
from the arguments after it. -/
theorem c9_exe_path_ignored (exe1 exe2 : String) (rest : List String) :
    setup (exe1 :: rest) = setup (exe2 :: rest) ∧
    ∀ ev p, (ev, p) ∈ emittedEvents (exe1 :: rest) → p ∈ rest := by
  have hsetup : ∀ exe : String, setup (exe :: rest) =
      match rest.find? isSupportedPath with
      | some p => [threadBody p]
      | none => [] := by
    intro exe
    rw [setup_eq_find]
    simp only [List.drop_succ_cons, List.drop_zero]
  constructor
  · rw [hsetup exe1, hsetup exe2]
  · intro ev p hp
    rw [emittedEvents_eq_find] at hp
    cases hf : (List.drop 1 (exe1 :: rest)).find? isSupportedPath with
    | none =>
      rw [hf] at hp
      simp at hp
    | some q =>
      rw [hf] at hp
      simp only [List.mem_singleton, Prod.mk.injEq] at hp
      have hq : q ∈ rest := List.mem_of_find?_eq_some hf
      rw [hp.2]
      exact hq

/-- Concrete instance of the C9 theorem: an executable path that itself ends
in ".md" changes nothing, and the emitted payload is the later argument. -/
theorem c9_exe_path_ignored_witness :
    setup ["markreview.md", "b.md"] = setup ["app", "b.md"] ∧
    ("b.md" : String) ∈ ["b.md"] :=
  ⟨(c9_exe_path_ignored "markreview.md" "app" ["b.md"]).1,
   (c9_exe_path_ignored "markreview.md" "app" ["b.md"]).2
     "tauri://file-args" "b.md" (by decide)⟩

/-- C10: the payload of every emitted event is one of the original argument
strings, verbatim; it is the first argument after the executable path that
passes the filter, and lowercasing is used only for the suffix test. -/
theorem c10_payload_is_original_argument (args : List String)
    (ev p : String) (h : (ev, p) ∈ emittedEvents args) :
    ev = "tauri://file-args" ∧ p ∈ args.drop 1 ∧
      (args.drop 1).find? isSupportedPath = some p := by
  rw [emittedEvents_eq_find] at h
  cases hf : (args.drop 1).find? isSupportedPath with
  | none =>
    rw [hf] at h
    simp at h
  | some q =>
    rw [hf] at h
    simp only [List.mem_singleton, Prod.mk.injEq] at h
    obtain ⟨he, hpq⟩ := h
    subst hpq
    exact ⟨he, List.mem_of_find?_eq_some hf, rfl⟩

/-- Concrete instance of the C10 theorem: the payload for the mixed-case
argument "A.MD" is the string "A.MD" itself, not its lowercased form. -/
theorem c10_payload_is_original_argument_witness :
    ("tauri://file-args" : String) = "tauri://file-args" ∧
    ("A.MD" : String) ∈ (["app", "A.MD"] : List String).drop 1 ∧
    ((["app", "A.MD"] : List String).drop 1).find? isSupportedPath =
      some "A.MD" :=
  c10_payload_is_original_argument ["app", "A.MD"] "tauri://file-args"
    "A.MD" (by decide)

end MarkReview
